import Mathlib

/-!
Verification of the Merkle inclusion-proof module (`src/proof.rs`) of the
`merkle.rs` library.  Digests (`Vec<u8>`) are modelled as lists of natural
numbers, the pluggable hash algorithm as a pair of digest functions, and the
proof generation and validation algorithms of `proof.rs` are translated
function by function.  The `Tree` type and the digest operations live in
source files (`tree.rs`, `hashutils.rs`) that are not part of the sources at
hand; they are modelled from the specification, as marked on each definition.
-/

set_option autoImplicit false

namespace Merkle

/-- A digest is a byte string, modelled as a list of natural numbers. -/
abbrev Digest := List Nat

/-- Modelled from the spec: the digest abstraction of `hashutils.rs` (missing
from the sources), spec section 4.1: `hash_leaf` hashes the byte encoding of a
single value, `hash_nodes` hashes the ordered concatenation of two digests. -/
structure Algorithm where
  hash_leaf : Digest → Digest
  hash_nodes : Digest → Digest → Digest

/-- Tags a value so that we know from which branch of a `Tree` it was found
(`enum Positioned` in `proof.rs`). -/
inductive Positioned (T : Type) where
  | Left : T → Positioned T
  | Right : T → Positioned T
deriving DecidableEq

/-- A `Lemma` holds the hash of a node, the hash of its sibling node tagged by
side, and an optional sub-lemma (`struct Lemma` in `proof.rs`). -/
inductive Lemma where
  | mk (node_hash : Digest) (sibling_hash : Option (Positioned Digest))
      (sub_lemma : Option Lemma)

/-- Field accessor for the `node_hash` field of a `Lemma`. -/
def Lemma.node_hash : Lemma → Digest
  | .mk h _ _ => h

/-- Field accessor for the `sibling_hash` field of a `Lemma`. -/
def Lemma.sibling_hash : Lemma → Option (Positioned Digest)
  | .mk _ s _ => s

/-- Field accessor for the `sub_lemma` field of a `Lemma`. -/
def Lemma.sub_lemma : Lemma → Option Lemma
  | .mk _ _ s => s

/-- Modelled from the spec: the binary digest tree of `tree.rs` (missing from
the sources); the variants and their fields are exactly those matched by
`Lemma::new` in `proof.rs` and described in spec section 3. -/
inductive Tree (T : Type) where
  | Empty (hash : Digest)
  | Leaf (hash : Digest) (value : T)
  | Node (hash : Digest) (left : Tree T) (right : Tree T)

/-- Modelled from the spec: `Tree::hash` returns the digest stored at the root
of the tree, as used by `Lemma::new_tree_proof`. -/
def Tree.hash {T : Type} : Tree T → Digest
  | .Empty h => h
  | .Leaf h _ => h
  | .Node h _ _ => h

/-- An inclusion proof (`struct Proof` in `proof.rs`): the hashing algorithm,
the root hash of the original tree, the first lemma, and the value.  The
`lemma` field is spelled `lemma_` because `lemma` is reserved here. -/
structure Proof (T : Type) where
  algorithm : Algorithm
  root_hash : Digest
  lemma_ : Lemma
  value : T

/-- A proof without the algorithm (`struct ProofData` in `proof.rs`). -/
structure ProofData (T : Type) where
  root_hash : Digest
  lemma_ : Lemma
  value : T

/-- `Proof::into_data` in `proof.rs`: the proof data, omitting the algorithm. -/
def Proof.into_data {T : Type} (p : Proof T) : ProofData T :=
  ⟨p.root_hash, p.lemma_, p.value⟩

/-- `ProofData::into_proof` in `proof.rs`: the proof with this data and the
given algorithm. -/
def ProofData.into_proof {T : Type} (d : ProofData T) (algorithm : Algorithm) :
    Proof T :=
  ⟨algorithm, d.root_hash, d.lemma_, d.value⟩

/-- The recursive lemma check `Proof::validate_lemma` of `proof.rs`; the only
field of `self` it reads is the algorithm, passed here as `a`. -/
def Proof.validate_lemma (a : Algorithm) : Lemma → Bool
  | .mk _ sib none => sib.isNone
  | .mk _ none (some _) => false
  | .mk nh (some (.Left h)) (some sub) =>
      (a.hash_nodes h sub.node_hash == nh) && Proof.validate_lemma a sub
  | .mk nh (some (.Right h)) (some sub) =>
      (a.hash_nodes sub.node_hash h == nh) && Proof.validate_lemma a sub

/-- `Proof::validate` in `proof.rs`: checks whether this inclusion proof is
well-formed and whether its root hash matches the given `root_hash`. -/
def Proof.validate {T : Type} (p : Proof T) (root_hash : Digest) : Bool :=
  if p.root_hash != root_hash || p.lemma_.node_hash != root_hash then false
  else Proof.validate_lemma p.algorithm p.lemma_

/-- `Lemma::new_leaf_proof` in `proof.rs`: a terminal lemma iff the leaf hash
equals the needle. -/
def Lemma.new_leaf_proof (hash needle : Digest) : Option Lemma :=
  if hash == needle then some (Lemma.mk hash none none) else none

/-- `Lemma::new` in `proof.rs`: attempts to generate a proof that a value with
hash `needle` is a member of the given `tree`.  In the source the `Node` case
is the separate function `Lemma::new_tree_proof`, mutually recursive with
`Lemma::new`; it is inlined here so that the recursion is structural, and
recovered verbatim as `Lemma.new_tree_proof` below, with the agreement proved
in `Lemma.new_node_eq`. -/
def Lemma.new {T : Type} : Tree T → Digest → Option Lemma
  | .Empty _, _ => none
  | .Leaf h _, needle => Lemma.new_leaf_proof h needle
  | .Node h l r, needle =>
    match Lemma.new l needle with
    | some sub => some (Lemma.mk h (some (Positioned.Right r.hash)) (some sub))
    | none =>
      match Lemma.new r needle with
      | some sub => some (Lemma.mk h (some (Positioned.Left l.hash)) (some sub))
      | none => none

/-- `Lemma::new_tree_proof` in `proof.rs`; the `map`/`or_else` combinator chain
of the source is written as explicit matches with the same result. -/
def Lemma.new_tree_proof {T : Type} (hash needle : Digest)
    (left right : Tree T) : Option Lemma :=
  match Lemma.new left needle with
  | some sub => some (Lemma.mk hash (some (Positioned.Right right.hash)) (some sub))
  | none =>
    match Lemma.new right needle with
    | some sub => some (Lemma.mk hash (some (Positioned.Left left.hash)) (some sub))
    | none => none

/-- On a `Node`, proof generation is exactly `Lemma::new_tree_proof` applied to
the node's hash and children, as in the source. -/
theorem Lemma.new_node_eq {T : Type} (h needle : Digest) (l r : Tree T) :
    Lemma.new (Tree.Node h l r) needle = Lemma.new_tree_proof h needle l r := rfl

/-- Lexicographic comparison of lists by a comparator on elements; this is the
order of `Vec<u8>` values in Rust. -/
def cmpList {α : Type} (c : α → α → Ordering) : List α → List α → Ordering
  | [], [] => .eq
  | [], _ :: _ => .lt
  | _ :: _, [] => .gt
  | x :: xs, y :: ys => (c x y).then (cmpList c xs ys)

/-- Comparison of `Option` values as derived in Rust: `None` sorts before
`Some`. -/
def cmpOption {α : Type} (c : α → α → Ordering) :
    Option α → Option α → Ordering
  | some u, some v => c u v
  | some _, none => Ordering.gt
  | none, some _ => Ordering.lt
  | none, none => Ordering.eq

/-- Comparison of `Positioned` values as derived in Rust: `Left` sorts before
`Right`, payloads compared within the same variant. -/
def cmpPositioned {α : Type} (c : α → α → Ordering) :
    Positioned α → Positioned α → Ordering
  | .Left x, .Left y => c x y
  | .Left _, .Right _ => .lt
  | .Right _, .Left _ => .gt
  | .Right x, .Right y => c x y

/-- The derived `Ord` on `Lemma`: fields compared lexicographically in
declaration order (`node_hash`, then `sibling_hash`, then `sub_lemma`). -/
def Lemma.cmp : Lemma → Lemma → Ordering
  | .mk h1 s1 sub1, .mk h2 s2 sub2 =>
    ((cmpList compare h1 h2).then
      (cmpOption (cmpPositioned (cmpList compare)) s1 s2)).then
      (match sub1, sub2 with
       | none, none => .eq
       | none, some _ => .lt
       | some _, none => .gt
       | some x, some y => Lemma.cmp x y)

/-- The structural equality on `Lemma`, which is what the derived `PartialEq`
of `proof.rs` computes. -/
theorem Lemma.eq_iff_fields (h1 h2 : Digest) (s1 s2 : Option (Positioned Digest))
    (sub1 sub2 : Option Lemma) :
    Lemma.mk h1 s1 sub1 = Lemma.mk h2 s2 sub2 ↔ h1 = h2 ∧ s1 = s2 ∧ sub1 = sub2 := by
  constructor
  · intro h
    injection h with e1 e2 e3
    exact ⟨e1, e2, e3⟩
  · rintro ⟨rfl, rfl, rfl⟩
    rfl

/-- `Ord::cmp` on `Proof` (`proof.rs` lines 43 to 50): compare the root hashes,
then the values, then the lemmas; the value comparator of `T: Ord` is passed as
`cmpT`. -/
def Proof.cmp {T : Type} (cmpT : T → T → Ordering) (p q : Proof T) : Ordering :=
  ((cmpList compare p.root_hash q.root_hash).then (cmpT p.value q.value)).then
    (Lemma.cmp p.lemma_ q.lemma_)

/-- `PartialEq` on `Proof` (`proof.rs` lines 29 to 33), stated propositionally:
root hash, lemma and value are all equal; the algorithm is not compared. -/
def Proof.eqProp {T : Type} (p q : Proof T) : Prop :=
  p.root_hash = q.root_hash ∧ p.lemma_ = q.lemma_ ∧ p.value = q.value

/-- Modelled from the spec: digest well-formedness of a tree for an algorithm
(spec section 3): each leaf digest is the leaf hash of the value's byte
encoding `enc`, and each inner digest is the node hash of the children's
digests, in order. -/
def Tree.wellFormedB {T : Type} (a : Algorithm) (enc : T → Digest) :
    Tree T → Bool
  | .Empty _ => true
  | .Leaf h v => h == a.hash_leaf (enc v)
  | .Node h l r =>
      (h == a.hash_nodes l.hash r.hash) &&
        Tree.wellFormedB a enc l && Tree.wellFormedB a enc r

/-- Whether some leaf of the tree stores exactly the digest `needle`. -/
def Tree.containsLeafDigest {T : Type} (needle : Digest) : Tree T → Bool
  | .Empty _ => false
  | .Leaf h _ => h == needle
  | .Node _ l r =>
      Tree.containsLeafDigest needle l || Tree.containsLeafDigest needle r

/-- The structural invariant of spec section 3 on lemma chains: sibling hash
and sub-lemma are both absent (terminal lemma) or both present, at every
nesting depth. -/
def Lemma.wellFormedB : Lemma → Bool
  | .mk _ none none => true
  | .mk _ (some _) (some sub) => Lemma.wellFormedB sub
  | .mk _ none (some _) => false
  | .mk _ (some _) none => false

/-- The list of lemmas along a chain, outermost first. -/
def Lemma.levels : Lemma → List Lemma
  | l@(.mk _ _ none) => [l]
  | .mk nh sib (some sub) => Lemma.mk nh sib (some sub) :: Lemma.levels sub

/-- The one-level, non-recursive part of the check made by
`Proof::validate_lemma`: structural consistency and, at an interior lemma, the
recombined digest matching this level's `node_hash`. -/
def Lemma.levelOk (a : Algorithm) : Lemma → Bool
  | .mk _ none none => true
  | .mk _ (some _) none => false
  | .mk _ none (some _) => false
  | .mk nh (some (.Left h)) (some sub) => a.hash_nodes h sub.node_hash == nh
  | .mk nh (some (.Right h)) (some sub) => a.hash_nodes sub.node_hash h == nh

/-- Structural induction along the `sub_lemma` chain of a `Lemma`. -/
theorem Lemma.inductionOn (P : Lemma → Prop)
    (base : ∀ nh sib, P (Lemma.mk nh sib none))
    (step : ∀ nh sib sub, P sub → P (Lemma.mk nh sib (some sub))) :
    ∀ l, P l
  | .mk nh sib none => base nh sib
  | .mk nh sib (some sub) => step nh sib sub (Lemma.inductionOn P base step sub)

/-- A concrete algorithm over byte lists with disjoint leaf and node images,
used to evaluate the development on concrete inputs. -/
def testAlg : Algorithm :=
  ⟨fun bs => 0 :: bs, fun l r => 1 :: (l ++ 2 :: r)⟩

/-- A concrete encoding of naturals as single-byte strings. -/
def testEnc (n : Nat) : Digest := [n]

/-- A concrete two-leaf tree whose digests are well-formed for `testAlg`. -/
def testTree : Tree Nat :=
  Tree.Node [1, 0, 5, 2, 0, 7]
    (Tree.Leaf [0, 5] 5)
    (Tree.Leaf [0, 7] 7)

/-- The lemma generated by `Lemma.new` on `testTree` for the right leaf. -/
def testLemma7 : Lemma :=
  Lemma.mk [1, 0, 5, 2, 0, 7] (some (Positioned.Left [0, 5]))
    (some (Lemma.mk [0, 7] none none))

/-- A lemma whose top level fails the recombination check under `testAlg`. -/
def badLemma : Lemma :=
  Lemma.mk [5] (some (Positioned.Left [3])) (some (Lemma.mk [4] none none))

/-- Whatever lemma `Lemma::new` returns carries the hash of the tree's root in
its `node_hash` field. -/
theorem Lemma.new_node_hash {T : Type} (t : Tree T) (needle : Digest)
    (l : Lemma) (h : Lemma.new t needle = some l) : l.node_hash = t.hash := by
  cases t with
  | Empty d => exact absurd h (by simp [Lemma.new])
  | Leaf d v =>
    simp only [Lemma.new, Lemma.new_leaf_proof] at h
    split at h
    · injection h with h
      subst h
      rfl
    · cases h
  | Node d lt rt =>
    simp only [Lemma.new] at h
    split at h
    · injection h with h
      subst h
      rfl
    · split at h
      · injection h with h
        subst h
        rfl
      · cases h

/-- Soundness of proof generation: on a tree whose digests are well-formed for
`a`, every lemma produced by `Lemma.new` passes the recursive lemma check. -/
theorem Lemma.new_valid {T : Type} (a : Algorithm) (enc : T → Digest) :
    ∀ (t : Tree T) (needle : Digest) (l : Lemma),
      Tree.wellFormedB a enc t = true → Lemma.new t needle = some l →
      Proof.validate_lemma a l = true := by
  intro t
  induction t with
  | Empty d =>
    intro needle l _ h
    exact absurd h (by simp [Lemma.new])
  | Leaf d v =>
    intro needle l _ h
    simp only [Lemma.new, Lemma.new_leaf_proof] at h
    split at h
    · injection h with h
      subst h
      rfl
    · cases h
  | Node d lt rt ihl ihr =>
    intro needle l hwf h
    simp only [Tree.wellFormedB, Bool.and_eq_true, beq_iff_eq] at hwf
    obtain ⟨⟨hd, hwl⟩, hwr⟩ := hwf
    simp only [Lemma.new] at h
    split at h
    · rename_i sub hsub
      injection h with h
      subst h
      simp only [Proof.validate_lemma, Bool.and_eq_true, beq_iff_eq]
      refine ⟨?_, ihl needle sub hwl hsub⟩
      rw [Lemma.new_node_hash lt needle sub hsub]
      exact hd.symm
    · split at h
      · rename_i hsub
        injection h with h
        subst h
        rename_i sub
        simp only [Proof.validate_lemma, Bool.and_eq_true, beq_iff_eq]
        refine ⟨?_, ihr needle sub hwr hsub⟩
        rw [Lemma.new_node_hash rt needle sub hsub]
        exact hd.symm
      · cases h

/-- C1: for every tree whose digests are well-formed for algorithm `a` and
every needle, if `Lemma::new` returns `Some lemma`, then the proof built from
`a`, the tree's root digest and that lemma validates against the root digest. -/
theorem C1_gen_proof_validates {T : Type} (a : Algorithm) (enc : T → Digest)
    (t : Tree T) (needle : Digest) (l : Lemma) (v : T)
    (hwf : Tree.wellFormedB a enc t = true)
    (hnew : Lemma.new t needle = some l) :
    Proof.validate (Proof.mk a t.hash l v) t.hash = true := by
  have hnh := Lemma.new_node_hash t needle l hnew
  have hv := Lemma.new_valid a enc t needle l hwf hnew
  simp [Proof.validate, hnh, hv]

/-- Witness for C1 on the concrete two-leaf tree `testTree`. -/
theorem C1_witness :
    Tree.wellFormedB testAlg testEnc testTree = true ∧
    Lemma.new testTree [0, 7] = some testLemma7 ∧
    Proof.validate (Proof.mk testAlg (Tree.hash testTree) testLemma7 7)
      (Tree.hash testTree) = true :=
  ⟨rfl, rfl,
    C1_gen_proof_validates testAlg testEnc testTree [0, 7] testLemma7 7 rfl rfl⟩

/-- C2: validation returns `false` whenever the proof's stored root hash or its
top lemma's node hash differs byte-wise from the claimed root; equivalently,
both equalities are necessary for validation to return `true`. -/
theorem C2_root_checks {T : Type} (p : Proof T) (r : Digest)
    (h : p.root_hash ≠ r ∨ p.lemma_.node_hash ≠ r) :
    Proof.validate p r = false := by
  rcases h with h | h <;> simp [Proof.validate, h]

/-- Witness for C2: a proof whose root hash differs from the claimed root. -/
theorem C2_witness :
    Proof.validate (Proof.mk testAlg [9] (Lemma.mk [9] none none) 0) [3] = false :=
  C2_root_checks (Proof.mk testAlg [9] (Lemma.mk [9] none none) 0) [3]
    (Or.inl (by decide))

/-- C3: at an interior lemma the check recombines the sub-lemma digest and the
sibling digest in the order given by the side tag, compares the result with
this lemma's node hash, and conjoins the recursive validity of the sub-lemma. -/
theorem C3_interior_level (a : Algorithm) (nh sib : Digest) (sub : Lemma) :
    (Proof.validate_lemma a
        (Lemma.mk nh (some (Positioned.Left sib)) (some sub)) =
      ((a.hash_nodes sib sub.node_hash == nh) && Proof.validate_lemma a sub)) ∧
    (Proof.validate_lemma a
        (Lemma.mk nh (some (Positioned.Right sib)) (some sub)) =
      ((a.hash_nodes sub.node_hash sib == nh) && Proof.validate_lemma a sub)) :=
  ⟨rfl, rfl⟩

/-- C4: a lemma with exactly one of sibling hash and sub-lemma present fails
the recursive check, and a terminal lemma with both absent passes the
structural check at its level. -/
theorem C4_one_sided_fails (a : Algorithm) (nh : Digest) :
    (∀ sib : Positioned Digest,
      Proof.validate_lemma a (Lemma.mk nh (some sib) none) = false) ∧
    (∀ sub : Lemma,
      Proof.validate_lemma a (Lemma.mk nh none (some sub)) = false) ∧
    Proof.validate_lemma a (Lemma.mk nh none none) = true :=
  ⟨fun sib => by cases sib <;> rfl, fun _ => rfl, rfl⟩

/-- C5: on a `Node`, the left subtree is searched first; a hit on the left is
wrapped with a `Right` sibling (the right child's digest), a miss on the left
followed by a hit on the right is wrapped with a `Left` sibling, and a miss on
both sides returns `None`. -/
theorem C5_left_first {T : Type} (h needle : Digest) (left right : Tree T) :
    (∀ l, Lemma.new left needle = some l →
      Lemma.new (Tree.Node h left right) needle =
        some (Lemma.mk h (some (Positioned.Right right.hash)) (some l))) ∧
    (∀ l, Lemma.new left needle = none → Lemma.new right needle = some l →
      Lemma.new (Tree.Node h left right) needle =
        some (Lemma.mk h (some (Positioned.Left left.hash)) (some l))) ∧
    (Lemma.new left needle = none → Lemma.new right needle = none →
      Lemma.new (Tree.Node h left right) needle = none) := by
  refine ⟨fun l hl => ?_, fun l hl hr => ?_, fun hl hr => ?_⟩
  · simp [Lemma.new, hl]
  · simp [Lemma.new, hl, hr]
  · simp [Lemma.new, hl, hr]

/-- Witness for C5: both sibling orientations on the concrete tree. -/
theorem C5_witness :
    Lemma.new (Tree.Node [1, 0, 5, 2, 0, 7] (Tree.Leaf [0, 5] 5)
        (Tree.Leaf [0, 7] (7 : Nat))) [0, 5] =
      some (Lemma.mk [1, 0, 5, 2, 0, 7] (some (Positioned.Right [0, 7]))
        (some (Lemma.mk [0, 5] none none))) ∧
    Lemma.new (Tree.Node [1, 0, 5, 2, 0, 7] (Tree.Leaf [0, 5] 5)
        (Tree.Leaf [0, 7] (7 : Nat))) [0, 7] =
      some (Lemma.mk [1, 0, 5, 2, 0, 7] (some (Positioned.Left [0, 5]))
        (some (Lemma.mk [0, 7] none none))) :=
  ⟨(C5_left_first [1, 0, 5, 2, 0, 7] [0, 5] (Tree.Leaf [0, 5] 5)
      (Tree.Leaf [0, 7] 7)).1 (Lemma.mk [0, 5] none none) rfl,
   (C5_left_first [1, 0, 5, 2, 0, 7] [0, 7] (Tree.Leaf [0, 5] 5)
      (Tree.Leaf [0, 7] 7)).2.1 (Lemma.mk [0, 7] none none) rfl rfl⟩

/-- C6: on a tree none of whose leaves stores the needle (the `Empty` tree
included), `Lemma::new` returns `None`; on a `Leaf`, it returns `Some` exactly
when the leaf digest equals the needle, and then the lemma is terminal. -/
theorem C6_not_found {T : Type} :
    (∀ (t : Tree T) (needle : Digest),
      Tree.containsLeafDigest needle t = false → Lemma.new t needle = none) ∧
    (∀ (h needle : Digest) (v : T) (l : Lemma),
      Lemma.new (Tree.Leaf h v) needle = some l ↔
        h = needle ∧ l = Lemma.mk h none none) := by
  constructor
  · intro t
    induction t with
    | Empty d =>
      intro needle _
      rfl
    | Leaf d v =>
      intro needle hc
      simp only [Tree.containsLeafDigest, beq_eq_false_iff_ne, ne_eq] at hc
      simp [Lemma.new, Lemma.new_leaf_proof, hc]
    | Node d lt rt ihl ihr =>
      intro needle hc
      simp only [Tree.containsLeafDigest, Bool.or_eq_false_iff] at hc
      simp [Lemma.new, ihl needle hc.1, ihr needle hc.2]
  · intro h needle v l
    constructor
    · intro hn
      simp only [Lemma.new, Lemma.new_leaf_proof] at hn
      split at hn
      · rename_i hb
        injection hn with hn
        exact ⟨by simpa [beq_iff_eq] using hb, hn.symm⟩
      · cases hn
    · rintro ⟨rfl, rfl⟩
      simp [Lemma.new, Lemma.new_leaf_proof]

/-- Witness for C6 on concrete inputs: an absent needle and a leaf hit. -/
theorem C6_witness :
    Tree.containsLeafDigest [9] testTree = false ∧
    Lemma.new testTree [9] = none ∧
    Lemma.new (Tree.Leaf [0, 5] (5 : Nat)) [0, 5] =
      some (Lemma.mk [0, 5] none none) :=
  ⟨rfl, (@C6_not_found Nat).1 testTree [9] rfl,
    ((@C6_not_found Nat).2 [0, 5] [0, 5] 5 (Lemma.mk [0, 5] none none)).2
      ⟨rfl, rfl⟩⟩

/-- C7: every lemma produced by `Lemma::new` satisfies, at every nesting depth,
the invariant that sibling hash and sub-lemma are both absent or both
present. -/
theorem C7_invariant {T : Type} :
    ∀ (t : Tree T) (needle : Digest) (l : Lemma),
      Lemma.new t needle = some l → Lemma.wellFormedB l = true := by
  intro t
  induction t with
  | Empty d =>
    intro needle l h
    exact absurd h (by simp [Lemma.new])
  | Leaf d v =>
    intro needle l h
    simp only [Lemma.new, Lemma.new_leaf_proof] at h
    split at h
    · injection h with h
      subst h
      rfl
    · cases h
  | Node d lt rt ihl ihr =>
    intro needle l h
    simp only [Lemma.new] at h
    split at h
    · rename_i sub hsub
      injection h with h
      subst h
      exact ihl needle sub hsub
    · split at h
      · rename_i hsub
        injection h with h
        subst h
        rename_i sub
        exact ihr needle sub hsub
      · cases h

/-- Witness for C7 on the concrete two-leaf tree. -/
theorem C7_witness :
    Lemma.new testTree [0, 7] = some testLemma7 ∧
    Lemma.wellFormedB testLemma7 = true :=
  ⟨rfl, C7_invariant testTree [0, 7] testLemma7 rfl⟩

/-- The recursive lemma check equals the conjunction, over all levels of the
chain, of the one-level checks. -/
theorem Lemma.validate_eq_levels (a : Algorithm) :
    ∀ l : Lemma,
      Proof.validate_lemma a l = (Lemma.levels l).all (Lemma.levelOk a) := by
  intro l
  induction l using Lemma.inductionOn with
  | base nh sib =>
    cases sib with
    | none => rfl
    | some s => cases s <;> rfl
  | step nh sib sub ih =>
    cases sib with
    | none => rfl
    | some s =>
      cases s with
      | Left d =>
        simp only [Proof.validate_lemma, Lemma.levels, List.all_cons,
          Lemma.levelOk, ih]
      | Right d =>
        simp only [Proof.validate_lemma, Lemma.levels, List.all_cons,
          Lemma.levelOk, ih]

/-- C9: validation is a total boolean function on well-typed proofs, and a
failing one-level check anywhere along the lemma chain forces the overall
result to be `false`. -/
theorem C9_validate_total {T : Type} (p : Proof T) (r : Digest) :
    (Proof.validate p r = true ∨ Proof.validate p r = false) ∧
    (∀ l, l ∈ Lemma.levels p.lemma_ → Lemma.levelOk p.algorithm l = false →
      Proof.validate p r = false) := by
  constructor
  · cases h : Proof.validate p r
    · exact Or.inr rfl
    · exact Or.inl rfl
  · intro l hl hbad
    cases hv : Proof.validate p r
    · rfl
    · exfalso
      unfold Proof.validate at hv
      split at hv
      · cases hv
      · rw [Lemma.validate_eq_levels, List.all_eq_true] at hv
        have hx := hv l hl
        rw [hbad] at hx
        simp at hx

/-- Witness for C9: a chain failing the recombination check at its top level. -/
theorem C9_witness :
    Lemma.levelOk testAlg badLemma = false ∧
    Proof.validate (Proof.mk testAlg [5] badLemma 0) [5] = false :=
  ⟨rfl,
    (C9_validate_total (Proof.mk testAlg [5] badLemma 0) [5]).2 badLemma
      (List.mem_cons_self _ _) rfl⟩

/-- C10: the round trip through `ProofData` preserves root hash, lemma and
value, and replaces the algorithm by the one supplied. -/
theorem C10_into_data_roundtrip {T : Type} (p : Proof T) (a : Algorithm) :
    ((p.into_data).into_proof a).root_hash = p.root_hash ∧
    ((p.into_data).into_proof a).lemma_ = p.lemma_ ∧
    ((p.into_data).into_proof a).value = p.value ∧
    ((p.into_data).into_proof a).algorithm = a :=
  ⟨rfl, rfl, rfl, rfl⟩

/-- Laws making a comparator a strict total order whose `eq` outcome is
propositional equality: the laws of a derived `Ord` in Rust. -/
structure LawfulCmp {α : Type} (c : α → α → Ordering) : Prop where
  eq_iff : ∀ x y, c x y = Ordering.eq ↔ x = y
  symm : ∀ x y, (c x y).swap = c y x
  lt_trans : ∀ {x y z}, c x y = Ordering.lt → c y z = Ordering.lt →
    c x z = Ordering.lt

/-- Computation rules for `cmpOption` and `Ordering.swap`, used as targeted
rewrites. -/
theorem cmpOption_nn {α : Type} (c : α → α → Ordering) :
    cmpOption c none none = .eq := rfl

/-- `None` sorts before `Some`. -/
theorem cmpOption_ns {α : Type} (c : α → α → Ordering) (y : α) :
    cmpOption c none (some y) = .lt := rfl

/-- `Some` sorts after `None`. -/
theorem cmpOption_sn {α : Type} (c : α → α → Ordering) (x : α) :
    cmpOption c (some x) none = .gt := rfl

/-- Two `Some` values compare by the payload comparator. -/
theorem cmpOption_ss {α : Type} (c : α → α → Ordering) (x y : α) :
    cmpOption c (some x) (some y) = c x y := rfl

/-- Swap of `lt`. -/
theorem ordering_swap_lt : Ordering.lt.swap = .gt := rfl

/-- Swap of `eq`. -/
theorem ordering_swap_eq : Ordering.eq.swap = .eq := rfl

/-- Swap of `gt`. -/
theorem ordering_swap_gt : Ordering.gt.swap = .lt := rfl

/-- The comparison of natural numbers is lawful. -/
theorem lawful_compare : LawfulCmp (compare : Nat → Nat → Ordering) := by
  refine ⟨fun x y => Nat.compare_eq_eq, fun x y => Nat.compare_swap x y, ?_⟩
  intro x y z h1 h2
  rw [Nat.compare_eq_lt] at h1 h2 ⊢
  exact Nat.lt_trans h1 h2

/-- Lexicographic comparison of lists preserves lawfulness. -/
theorem lawful_cmpList {α : Type} {c : α → α → Ordering} (hc : LawfulCmp c) :
    LawfulCmp (cmpList c) := by
  constructor
  · intro xs
    induction xs with
    | nil =>
      intro ys
      cases ys <;> simp [cmpList]
    | cons x xs ih =>
      intro ys
      cases ys with
      | nil => simp [cmpList]
      | cons y ys => simp [cmpList, Ordering.then_eq_eq, hc.eq_iff, ih]
  · intro xs
    induction xs with
    | nil =>
      intro ys
      cases ys <;> rfl
    | cons x xs ih =>
      intro ys
      cases ys with
      | nil => rfl
      | cons y ys => simp [cmpList, Ordering.swap_then, hc.symm, ih]
  · intro xs
    induction xs with
    | nil =>
      intro ys zs h1 h2
      cases ys with
      | nil => simp [cmpList] at h1
      | cons y ys =>
        cases zs with
        | nil => simp [cmpList] at h2
        | cons z zs => rfl
    | cons x xs ih =>
      intro ys zs h1 h2
      cases ys with
      | nil => simp [cmpList] at h1
      | cons y ys =>
        cases zs with
        | nil => simp [cmpList] at h2
        | cons z zs =>
          simp only [cmpList, Ordering.then_eq_lt] at h1 h2 ⊢
          rcases h1 with h1 | ⟨h1e, h1r⟩
          · rcases h2 with h2 | ⟨h2e, h2r⟩
            · exact Or.inl (hc.lt_trans h1 h2)
            · have e := (hc.eq_iff y z).1 h2e
              subst e
              exact Or.inl h1
          · have e := (hc.eq_iff x y).1 h1e
            subst e
            rcases h2 with h2 | ⟨h2e, h2r⟩
            · exact Or.inl h2
            · have e := (hc.eq_iff x z).1 h2e
              subst e
              exact Or.inr ⟨(hc.eq_iff x x).2 rfl, ih h1r h2r⟩

/-- Comparison of options (`None` before `Some`) preserves lawfulness. -/
theorem lawful_cmpOption {α : Type} {c : α → α → Ordering} (hc : LawfulCmp c) :
    LawfulCmp (cmpOption c) := by
  constructor
  · intro x y
    cases x <;> cases y <;> simp [cmpOption, hc.eq_iff]
  · intro x y
    cases x <;> cases y <;> first | rfl | (exact hc.symm _ _)
  · intro x y z h1 h2
    cases x <;> cases y <;> cases z <;>
      simp only [cmpOption] at h1 h2 ⊢ <;>
      first
        | rfl
        | exact hc.lt_trans h1 h2
        | exact absurd h1 (by decide)
        | exact absurd h2 (by decide)

/-- Comparison of `Positioned` values (`Left` before `Right`) preserves
lawfulness. -/
theorem lawful_cmpPositioned {α : Type} {c : α → α → Ordering}
    (hc : LawfulCmp c) : LawfulCmp (cmpPositioned c) := by
  constructor
  · intro x y
    cases x <;> cases y <;> simp [cmpPositioned, hc.eq_iff]
  · intro x y
    cases x <;> cases y <;> first | rfl | (exact hc.symm _ _)
  · intro x y z h1 h2
    cases x <;> cases y <;> cases z <;>
      simp only [cmpPositioned] at h1 h2 ⊢ <;>
      first
        | rfl
        | exact hc.lt_trans h1 h2
        | exact absurd h1 (by decide)
        | exact absurd h2 (by decide)

/-- A three-component lexicographic combination is `lt`. -/
theorem lex3_lt_iff {o1 o2 o3 : Ordering} :
    (o1.then o2).then o3 = .lt ↔
      o1 = .lt ∨ o1 = .eq ∧ o2 = .lt ∨ o1 = .eq ∧ o2 = .eq ∧ o3 = .lt := by
  cases o1 <;> cases o2 <;> cases o3 <;> decide

/-- A three-component lexicographic combination is `eq`. -/
theorem lex3_eq_iff {o1 o2 o3 : Ordering} :
    (o1.then o2).then o3 = .eq ↔ o1 = .eq ∧ o2 = .eq ∧ o3 = .eq := by
  cases o1 <;> cases o2 <;> cases o3 <;> decide

/-- Transitivity of a three-component lexicographic comparison, assuming
equality reflection and transitivity for the first two components and only
transitivity at the relevant points for the third. -/
theorem lex3_trans {α β γ : Type} {cA : α → α → Ordering}
    {cB : β → β → Ordering} {cC : γ → γ → Ordering}
    {a1 a2 a3 : α} {b1 b2 b3 : β} {c1 c2 c3 : γ}
    (hAeq : ∀ x y, cA x y = .eq ↔ x = y)
    (hAtr : cA a1 a2 = .lt → cA a2 a3 = .lt → cA a1 a3 = .lt)
    (hBeq : ∀ x y, cB x y = .eq ↔ x = y)
    (hBtr : cB b1 b2 = .lt → cB b2 b3 = .lt → cB b1 b3 = .lt)
    (hCtr : cC c1 c2 = .lt → cC c2 c3 = .lt → cC c1 c3 = .lt)
    (h12 : ((cA a1 a2).then (cB b1 b2)).then (cC c1 c2) = .lt)
    (h23 : ((cA a2 a3).then (cB b2 b3)).then (cC c2 c3) = .lt) :
    ((cA a1 a3).then (cB b1 b3)).then (cC c1 c3) = .lt := by
  rw [lex3_lt_iff] at h12 h23 ⊢
  rcases h12 with h12 | ⟨ha12, h12⟩ | ⟨ha12, hb12, h12⟩
  · rcases h23 with h23 | ⟨ha23, h23⟩ | ⟨ha23, hb23, h23⟩
    · exact Or.inl (hAtr h12 h23)
    · have e := (hAeq a2 a3).1 ha23
      subst e
      exact Or.inl h12
    · have e := (hAeq a2 a3).1 ha23
      subst e
      exact Or.inl h12
  · have e := (hAeq a1 a2).1 ha12
    subst e
    rcases h23 with h23 | ⟨ha23, h23⟩ | ⟨ha23, hb23, h23⟩
    · exact Or.inl h23
    · have e := (hAeq a1 a3).1 ha23
      subst e
      exact Or.inr (Or.inl ⟨(hAeq a1 a1).2 rfl, hBtr h12 h23⟩)
    · have e := (hAeq a1 a3).1 ha23
      subst e
      have eb := (hBeq b2 b3).1 hb23
      subst eb
      exact Or.inr (Or.inl ⟨(hAeq a1 a1).2 rfl, h12⟩)
  · have e := (hAeq a1 a2).1 ha12
    subst e
    have eb := (hBeq b1 b2).1 hb12
    subst eb
    rcases h23 with h23 | ⟨ha23, h23⟩ | ⟨ha23, hb23, h23⟩
    · exact Or.inl h23
    · have e := (hAeq a1 a3).1 ha23
      subst e
      exact Or.inr (Or.inl ⟨(hAeq a1 a1).2 rfl, h23⟩)
    · have e := (hAeq a1 a3).1 ha23
      subst e
      have eb := (hBeq b1 b3).1 hb23
      subst eb
      exact Or.inr (Or.inr ⟨(hAeq a1 a1).2 rfl, (hBeq b1 b1).2 rfl,
        hCtr h12 h23⟩)

/-- Unfolding of `Lemma.cmp`, with the inner match written as `cmpOption`. -/
theorem Lemma.cmp_def (h1 h2 : Digest) (s1 s2 : Option (Positioned Digest))
    (sub1 sub2 : Option Lemma) :
    Lemma.cmp (Lemma.mk h1 s1 sub1) (Lemma.mk h2 s2 sub2) =
      ((cmpList compare h1 h2).then
        (cmpOption (cmpPositioned (cmpList compare)) s1 s2)).then
        (cmpOption Lemma.cmp sub1 sub2) := by
  cases sub1 <;> cases sub2 <;> rfl

/-- The derived order on lemmas returns `eq` exactly on equal lemmas. -/
theorem Lemma.cmp_eq_iff : ∀ l1 l2 : Lemma, Lemma.cmp l1 l2 = .eq ↔ l1 = l2 := by
  have hl := lawful_cmpList lawful_compare
  have hs := lawful_cmpOption (lawful_cmpPositioned (lawful_cmpList lawful_compare))
  intro l1
  induction l1 using Lemma.inductionOn with
  | base nh sib =>
    rintro ⟨nh2, sib2, sub2⟩
    cases sub2 with
    | none =>
      simp [Lemma.cmp_def, lex3_eq_iff, hl.eq_iff, hs.eq_iff, cmpOption_nn]
    | some sub2 =>
      simp [Lemma.cmp_def, lex3_eq_iff, cmpOption_ns]
  | step nh sib sub ih =>
    rintro ⟨nh2, sib2, sub2⟩
    cases sub2 with
    | none => simp [Lemma.cmp_def, lex3_eq_iff, cmpOption_sn]
    | some sub2 =>
      simp [Lemma.cmp_def, lex3_eq_iff, hl.eq_iff, hs.eq_iff, cmpOption_ss, ih]

/-- Swapping the arguments of the derived order on lemmas swaps the outcome. -/
theorem Lemma.cmp_symm : ∀ l1 l2 : Lemma,
    (Lemma.cmp l1 l2).swap = Lemma.cmp l2 l1 := by
  have hl := lawful_cmpList lawful_compare
  have hs := lawful_cmpOption (lawful_cmpPositioned (lawful_cmpList lawful_compare))
  intro l1
  induction l1 using Lemma.inductionOn with
  | base nh sib =>
    rintro ⟨nh2, sib2, sub2⟩
    cases sub2 <;>
      simp [Lemma.cmp_def, Ordering.swap_then, hl.symm, hs.symm, cmpOption_nn,
        cmpOption_ns, cmpOption_sn, cmpOption_ss, ordering_swap_lt,
        ordering_swap_eq, ordering_swap_gt]
  | step nh sib sub ih =>
    rintro ⟨nh2, sib2, sub2⟩
    cases sub2 <;>
      simp [Lemma.cmp_def, Ordering.swap_then, hl.symm, hs.symm, cmpOption_nn,
        cmpOption_ns, cmpOption_sn, cmpOption_ss, ordering_swap_lt,
        ordering_swap_eq, ordering_swap_gt, ih]

/-- The derived order on lemmas is transitive on `lt`. -/
theorem Lemma.cmp_lt_trans : ∀ l1 l2 l3 : Lemma,
    Lemma.cmp l1 l2 = .lt → Lemma.cmp l2 l3 = .lt → Lemma.cmp l1 l3 = .lt := by
  have hl := lawful_cmpList lawful_compare
  have hs := lawful_cmpOption (lawful_cmpPositioned (lawful_cmpList lawful_compare))
  intro l1
  induction l1 using Lemma.inductionOn with
  | base nh sib =>
    rintro ⟨nh2, sib2, sub2⟩ ⟨nh3, sib3, sub3⟩ h12 h23
    rw [Lemma.cmp_def] at h12 h23 ⊢
    refine lex3_trans hl.eq_iff hl.lt_trans hs.eq_iff hs.lt_trans ?_ h12 h23
    intro hc12 hc23
    cases sub2 with
    | none => simp [cmpOption] at hc12
    | some s2 =>
      cases sub3 with
      | none => simp [cmpOption] at hc23
      | some s3 => rfl
  | step nh sib sub ih =>
    rintro ⟨nh2, sib2, sub2⟩ ⟨nh3, sib3, sub3⟩ h12 h23
    rw [Lemma.cmp_def] at h12 h23 ⊢
    refine lex3_trans hl.eq_iff hl.lt_trans hs.eq_iff hs.lt_trans ?_ h12 h23
    intro hc12 hc23
    cases sub2 with
    | none => simp [cmpOption] at hc12
    | some s2 =>
      cases sub3 with
      | none => simp [cmpOption] at hc23
      | some s3 =>
        simp only [cmpOption] at hc12 hc23 ⊢
        exact ih s2 s3 hc12 hc23

/-- The derived order on lemmas is lawful. -/
theorem lawful_lemma_cmp : LawfulCmp Lemma.cmp :=
  ⟨Lemma.cmp_eq_iff, Lemma.cmp_symm,
    fun {x y z} => Lemma.cmp_lt_trans x y z⟩

/-- C8: under a lawful value comparator, `Ord::cmp` on proofs is the
lexicographic comparison by root hash, then value, then lemma; it satisfies
the strict-total-order laws (swap symmetry — hence totality and antisymmetry —
and transitivity), and its `eq` outcome coincides with the derived
`PartialEq`, which compares exactly the three fields. -/
theorem C8_proof_order {T : Type} (cmpT : T → T → Ordering)
    (hT : LawfulCmp cmpT) :
    (∀ p q : Proof T, Proof.cmp cmpT p q =
      ((cmpList compare p.root_hash q.root_hash).then
        (cmpT p.value q.value)).then (Lemma.cmp p.lemma_ q.lemma_)) ∧
    (∀ p q : Proof T, (Proof.cmp cmpT p q).swap = Proof.cmp cmpT q p) ∧
    (∀ p q r : Proof T, Proof.cmp cmpT p q = .lt → Proof.cmp cmpT q r = .lt →
      Proof.cmp cmpT p r = .lt) ∧
    (∀ p q : Proof T, Proof.cmp cmpT p q = .eq ↔ Proof.eqProp p q) := by
  have hl := lawful_cmpList lawful_compare
  refine ⟨fun p q => rfl, ?_, ?_, ?_⟩
  · intro p q
    simp only [Proof.cmp, Ordering.swap_then, hl.symm, hT.symm, Lemma.cmp_symm]
  · intro p q r h12 h23
    exact lex3_trans hl.eq_iff hl.lt_trans hT.eq_iff hT.lt_trans
      (Lemma.cmp_lt_trans _ _ _) h12 h23
  · intro p q
    simp only [Proof.cmp, lex3_eq_iff, hl.eq_iff, hT.eq_iff,
      Lemma.cmp_eq_iff, Proof.eqProp]
    tauto

/-- Witness for C8: swap symmetry on two concrete proofs over `Nat` values. -/
theorem C8_witness :
    (Proof.cmp (fun a b : Nat => compare a b)
        (Proof.mk testAlg [1] testLemma7 5) (Proof.mk testAlg [2] testLemma7 5)).swap =
      Proof.cmp (fun a b : Nat => compare a b)
        (Proof.mk testAlg [2] testLemma7 5) (Proof.mk testAlg [1] testLemma7 5) :=
  (C8_proof_order (fun a b : Nat => compare a b) lawful_compare).2.1
    (Proof.mk testAlg [1] testLemma7 5) (Proof.mk testAlg [2] testLemma7 5)

end Merkle
